import Mathlib

/-!
Verification of the ark coordinator server's round-orchestration helpers.

The definitions below are a shallow embedding of the Go sources:
  * `server/internal/core/application/utils.go` — the tx-request queue
    (`txRequestsQueue`), the forfeit collector (`forfeitTxsMap`) and the
    sweep traversal (`findSweepableOutputs`);
  * the MuSig2 tree-signing layer of `common/tree`, exercised by
    `common/tree/musig2_test.go` (the implementation itself is not part of
    the staged sources; those definitions are modelled from the spec and
    say so in their doc comments).

Conventions: Go `time.Time` is embedded as `Int` (seconds); the Go float
comparison `time.Since(t).Minutes() > k` is embedded as the exact integer
comparison `now - t > 60 * k`.  Go `uint64` sums wrap modulo `2 ^ 64`; the
embedding accumulates with an explicit `% 2 ^ 64` at each step.  Go maps
are embedded as association lists in insertion order; map iteration is
list order.  Errors are explicit `Except` values.
-/

namespace Ark

/-- Size of the Go `uint64` value space: sums of amounts wrap modulo this. -/
def U64 : Nat := 18446744073709551616

/-- One step of Go `uint64` accumulation: add then wrap. -/
def wrapAdd (a b : Nat) : Nat := (a + b) % U64

/-- A Go `uint64` running sum over a list of amounts. -/
def wrapSum (l : List Nat) : Nat := l.foldl wrapAdd 0

/-- Embeds `domain.VtxoKey` / `domain.Outpoint`: an outpoint `(txid, vout)`. -/
structure VtxoKey where
  txid : String
  vout : Nat
deriving DecidableEq

/-- Embeds `domain.Vtxo` (the fields `utils.go` reads: the key and the amount). -/
structure Vtxo where
  key : VtxoKey
  amount : Nat
deriving DecidableEq

/-- Modelled from the spec: `domain.Vtxo.String` renders the outpoint as the
`txid:vout` string used both as map key and as the lexicographic sort key
(the `domain` package is not among the staged sources). -/
def Vtxo.keyStr (v : Vtxo) : String := v.key.txid ++ ":" ++ toString v.key.vout

/-- Embeds `domain.Receiver` (the field `utils.go` reads: the amount). -/
structure Receiver where
  amount : Nat
deriving DecidableEq

/-- Embeds `domain.TxRequest`: id, input VTXOs and receivers. -/
structure TxRequest where
  id : String
  inputs : List Vtxo
  receivers : List Receiver
deriving DecidableEq

/-- Embeds `ports.BoardingInput` (the fields `utils.go` reads). -/
structure BoardingInput where
  txid : String
  vout : Nat
  amount : Nat
deriving DecidableEq

/-- Embeds `note.Note` (the fields `utils.go` reads: id and value). -/
structure Note where
  id : Nat
  value : Nat
deriving DecidableEq

/-- Embeds `tree.SigningType`. -/
inductive SigningType where
  | signAll
  | signBranch
deriving DecidableEq

/-- Embeds `tree.Musig2` (cosigner key set and signing type). -/
structure Musig2Data where
  cosignersPublicKeys : List String
  signingType : SigningType
deriving DecidableEq

/-- Embeds `timedTxRequest`: a queued request with its intake metadata. -/
structure TimedTxRequest where
  request : TxRequest
  boardingInputs : List BoardingInput
  notes : List Note
  timestamp : Int
  pingTimestamp : Int
  musig2Data : Option Musig2Data
  recoveredVtxos : List Vtxo
deriving DecidableEq

/-- The queue state: the Go `map[string]*timedTxRequest` as an association
list in insertion order (list order stands for map iteration order). -/
abbrev Queue := List TimedTxRequest

/-- Errors returned by the queue operations (Go returns `fmt.Errorf`
strings; the embedding keeps the distinguishing data). -/
inductive QueueErr where
  | duplicatedRequest (id : String)
  | duplicatedNote (id : Nat)
  | duplicatedInput (k : VtxoKey) (usedBy : String)
  | duplicatedBoardingInput (txid : String) (vout : Nat) (usedBy : String)
  | duplicatedRecoveredVtxo (k : VtxoKey) (usedBy : String)
  | notFound (id : String)
  | sumMismatch (inputs outputs : Nat)
deriving DecidableEq

/-- Embeds `txRequestsQueue.len`: counts only requests with receivers. -/
def Queue.count (s : Queue) : Nat :=
  (s.filter (fun r => !r.request.receivers.isEmpty)).length

/-- Embeds `txRequestsQueue.pushWithNotes`.  The inserted entry gets empty
boarding inputs and recovered vtxos, birth timestamp `now` and the zero
ping timestamp (Go `time.Time{}`, embedded as `0`). -/
def Queue.pushWithNotes (s : Queue) (request : TxRequest) (notes : List Note)
    (now : Int) : Except QueueErr Queue :=
  if s.any (fun r => r.request.id == request.id) then
    .error (.duplicatedRequest request.id)
  else
    match notes.find? (fun n => s.any (fun r => r.notes.any (fun m => m.id == n.id))) with
    | some n => .error (.duplicatedNote n.id)
    | none => .ok (s ++ [⟨request, [], notes, now, 0, none, []⟩])

/-- Embeds `txRequestsQueue.push`: rejects a reused request id, an input
VTXO outpoint, a boarding outpoint or a recovered outpoint already present
in the queue, and otherwise appends the entry with both timestamps `now`. -/
def Queue.push (s : Queue) (request : TxRequest)
    (boardingInputs : List BoardingInput) (recoveredVtxos : List Vtxo)
    (musig2Data : Option Musig2Data) (now : Int) : Except QueueErr Queue :=
  if s.any (fun r => r.request.id == request.id) then
    .error (.duplicatedRequest request.id)
  else
    match request.inputs.find?
        (fun i => s.any (fun r => r.request.inputs.any (fun p => p.key == i.key))) with
    | some i => .error (.duplicatedInput i.key "")
    | none =>
      match boardingInputs.find?
          (fun i => s.any (fun r => r.boardingInputs.any
            (fun p => p.txid == i.txid && p.vout == i.vout))) with
      | some i => .error (.duplicatedBoardingInput i.txid i.vout "")
      | none =>
        match recoveredVtxos.find?
            (fun v => s.any (fun r => r.recoveredVtxos.any (fun p => p.key == v.key))) with
        | some v => .error (.duplicatedRecoveredVtxo v.key "")
        | none =>
          .ok (s ++ [⟨request, boardingInputs, [], now, now, musig2Data, recoveredVtxos⟩])

/-- The select-gap bound of `pop`, in seconds (`selectGapMinutes = 1`). -/
def selectGapSeconds : Int := 60

/-- The delete-gap bound of `pop`, in seconds (`deleteGapMinutes = 5`). -/
def deleteGapSeconds : Int := 300

/-- A request `pop` keeps for selection: it has receivers and its last ping
is at most one minute old. -/
def popEligible (now : Int) (r : TimedTxRequest) : Bool :=
  !r.request.receivers.isEmpty && !(now - r.pingTimestamp > selectGapSeconds)

/-- A request `pop` deletes from the map: it has receivers and its last
ping is over five minutes old. -/
def popStale (now : Int) (r : TimedTxRequest) : Bool :=
  !r.request.receivers.isEmpty && now - r.pingTimestamp > deleteGapSeconds

/-- Birth-timestamp order used by `pop`'s `sort.SliceStable`. -/
def byBirth (a b : TimedTxRequest) : Prop := a.timestamp ≤ b.timestamp

instance : DecidableRel byBirth := fun a b => Int.decLe a.timestamp b.timestamp

/-- The eligible requests of the queue in FIFO order of birth timestamp. -/
def Queue.popSelect (s : Queue) (now : Int) : List TimedTxRequest :=
  List.insertionSort byBirth (s.filter (popEligible now))

/-- How many requests `pop num` takes: `num` clamped to the eligible count,
with a negative `num` meaning all of them. -/
def popCount (s : Queue) (num : Int) (now : Int) : Nat :=
  if num < 0 then (s.popSelect now).length
  else min num.toNat (s.popSelect now).length

/-- The requests a `pop` call returns (before projecting out the fields). -/
def Queue.popTaken (s : Queue) (num : Int) (now : Int) : List TimedTxRequest :=
  (s.popSelect now).take (popCount s num now)

/-- The queue left behind by `pop`: stale entries are deleted during the
scan and taken entries are deleted by id when returned. -/
def Queue.popRemaining (s : Queue) (num : Int) (now : Int) : Queue :=
  (s.filter (fun r => !popStale now r)).filter
    (fun r => !(s.popTaken num now).any (fun t => t.request.id == r.request.id))

/-- Result of `txRequestsQueue.pop`: the five returned slices plus the
queue state after the call. -/
structure PopResult where
  requests : List TxRequest
  boardingInputs : List BoardingInput
  notes : List Note
  musig2Data : List (Option Musig2Data)
  recoveredVtxos : List Vtxo
  queue : Queue
deriving DecidableEq

/-- Embeds `txRequestsQueue.pop`. -/
def Queue.pop (s : Queue) (num : Int) (now : Int) : PopResult :=
  let taken := s.popTaken num now
  ⟨taken.map (·.request), taken.flatMap (·.boardingInputs), taken.flatMap (·.notes),
    taken.map (·.musig2Data), taken.flatMap (·.recoveredVtxos), s.popRemaining num now⟩

/-- The wrapped-`uint64` sum of inputs `update` computes for a submitted
request against the stored entry: submitted VTXO inputs plus stored
boarding inputs, note values and recovered VTXOs. -/
def updateSumInputs (request : TxRequest) (r : TimedTxRequest) : Nat :=
  wrapSum (request.inputs.map (·.amount) ++ r.boardingInputs.map (·.amount)
    ++ r.notes.map (·.value) ++ r.recoveredVtxos.map (·.amount))

/-- The wrapped-`uint64` sum of the submitted request's receiver amounts. -/
def updateSumOutputs (request : TxRequest) : Nat :=
  wrapSum (request.receivers.map (·.amount))

/-- Embeds `txRequestsQueue.update`: balance check then in-place update of
the stored request (and of the musig2 data when one is submitted). -/
def Queue.update (s : Queue) (request : TxRequest)
    (musig2Data : Option Musig2Data) : Except QueueErr Queue :=
  match s.find? (fun r => r.request.id == request.id) with
  | none => .error (.notFound request.id)
  | some r =>
    if updateSumInputs request r ≠ updateSumOutputs request then
      .error (.sumMismatch (updateSumInputs request r) (updateSumOutputs request))
    else
      .ok (s.map (fun t =>
        if t.request.id = request.id then
          { t with request := request,
                   musig2Data := match musig2Data with
                     | some d => some d
                     | none => t.musig2Data }
        else t))

/-- The queue after the entry keyed `id` gets its ping timestamp set. -/
def Queue.setPing (s : Queue) (id : String) (now : Int) : Queue :=
  s.map (fun t => if t.request.id = id then { t with pingTimestamp := now } else t)

/-- Embeds `txRequestsQueue.updatePingTimestamp`. -/
def Queue.updatePing (s : Queue) (id : String) (now : Int) : Except QueueErr Queue :=
  if s.any (fun r => r.request.id == id) then .ok (s.setPing id now)
  else .error (.notFound id)

/-- A sequence of `updatePingTimestamp` calls at the given times, stopping
at the first error. -/
def Queue.pingSeq (s : Queue) (id : String) : List Int → Except QueueErr Queue
  | [] => .ok s
  | t :: ts =>
    match s.updatePing id t with
    | .ok s' => s'.pingSeq id ts
    | .error e => .error e

/-- Lexicographic strict order on character lists, comparing code points;
this is Go's byte-wise `<` on the (ASCII) strings `utils.go` compares. -/
def chLt : List Char → List Char → Bool
  | [], [] => false
  | [], _ :: _ => true
  | _ :: _, [] => false
  | a :: as, b :: bs =>
    if a.toNat < b.toNat then true
    else if b.toNat < a.toNat then false
    else chLt as bs

/-- Go string comparison `a < b` on the embedded strings. -/
def strLtB (a b : String) : Bool := chLt a.data b.data

/-- The sort order `sort.Slice` with comparator `String() < String()`
establishes: not-greater, a total preorder. -/
def vtxoLe (a b : Vtxo) : Prop := strLtB b.keyStr a.keyStr = false

instance : DecidableRel vtxoLe := fun a b =>
  instDecidableEqBool (strLtB b.keyStr a.keyStr) false

/-- Embeds `tree.Node` (the fields `utils.go` reads: txid, parent txid and
the leaf flag). -/
structure TNode where
  txid : String
  parentTxid : String
  leaf : Bool
deriving DecidableEq

/-- Embeds `tree.TxTree`: a matrix of nodes, row 0 holding the root. -/
abbrev TxTree := List (List TNode)

/-- Modelled from the spec: `tree.TxTree.Leaves` returns the tree's leaf
nodes (the `tree` package implementation is not among the staged sources). -/
def TxTree.leaves (t : TxTree) : List TNode := t.flatten.filter (·.leaf)

/-- Modelled from the spec: `tree.TxTree.Children txid` returns the nodes
whose parent transaction is `txid`. -/
def TxTree.children (t : TxTree) (txid : String) : List TNode :=
  t.flatten.filter (fun n => n.parentTxid == txid)

/-- Errors of the forfeit collector. -/
inductive ForfeitErr where
  | noConnectors
  | tooManyVtxos (vtxos leaves : Nat)
  | missingForfeit (k : VtxoKey)
deriving DecidableEq

/-- Embeds `forfeitTxsMap`: the forfeit map (association list keyed by
input VTXO), the connector tree, the connectors index and the batch. -/
structure ForfeitState where
  forfeitTxs : List (VtxoKey × String)
  connectors : TxTree
  connectorsIndex : List (String × VtxoKey)
  vtxos : List Vtxo
deriving DecidableEq

/-- The state `newForfeitTxsMap` and `forfeitTxsMap.reset` produce. -/
def ForfeitState.empty : ForfeitState := ⟨[], [], [], []⟩

/-- Go map assignment on an association list: overwrite the key if present,
else append. -/
def assocSet (m : List (VtxoKey × String)) (k : VtxoKey) (v : String) :
    List (VtxoKey × String) :=
  if m.any (fun p => p.1 == k) then
    m.map (fun p => if p.1 = k then (k, v) else p)
  else m ++ [(k, v)]

/-- The input VTXOs `forfeitTxsMap.init` collects from a batch. -/
def initVtxos (requests : List TxRequest) : List Vtxo :=
  requests.flatMap (·.inputs)

/-- The batch's input VTXOs sorted lexicographically by their `txid:vout`
string, as `forfeitTxsMap.init` sorts them with `sort.Slice`. -/
def initSorted (requests : List TxRequest) : List Vtxo :=
  List.insertionSort vtxoLe (initVtxos requests)

/-- Embeds `forfeitTxsMap.init`: stores the batch and the connector tree,
clears each vtxo's forfeit slot, and builds the connectors index by
mapping the sorted vtxos position-wise onto the connector leaves'
first outputs; fails when there is no leaf or more vtxos than leaves. -/
def ForfeitState.init (m : ForfeitState) (connectors : TxTree)
    (requests : List TxRequest) : Except ForfeitErr ForfeitState :=
  let vtxosToSign := initVtxos requests
  let base : ForfeitState :=
    { m with vtxos := vtxosToSign, connectors := connectors,
             forfeitTxs := vtxosToSign.foldl (fun acc v => assocSet acc v.key "") m.forfeitTxs }
  if vtxosToSign.isEmpty then .ok { base with connectorsIndex := [] }
  else
    let lv := connectors.leaves
    if lv.isEmpty then .error .noConnectors
    else
      let connectorsOutpoints := lv.map (fun n => (⟨n.txid, 0⟩ : VtxoKey))
      let sorted := initSorted requests
      if connectorsOutpoints.length < sorted.length then
        .error (.tooManyVtxos sorted.length connectorsOutpoints.length)
      else
        .ok { base with
              connectorsIndex := List.zip (sorted.map Vtxo.keyStr) connectorsOutpoints }

/-- Embeds `forfeitTxsMap.allSigned`: every slot holds a non-empty tx. -/
def ForfeitState.allSigned (m : ForfeitState) : Bool :=
  m.forfeitTxs.all (fun p => !p.2.isEmpty)

/-- Embeds `forfeitTxsMap.pop`: the collected txs, or the vtxo of the
first empty slot; the deferred `reset` empties the state either way. -/
def ForfeitState.pop (m : ForfeitState) :
    Except ForfeitErr (List String) × ForfeitState :=
  match m.forfeitTxs.find? (fun p => p.2.isEmpty) with
  | some p => (.error (.missingForfeit p.1), ForfeitState.empty)
  | none => (.ok (m.forfeitTxs.map (·.2)), ForfeitState.empty)

/-- The wallet's confirmation oracle, embedding
`ports.WalletService.IsTransactionConfirmed`: `none` when the transaction
is unconfirmed, otherwise its block height and block time. -/
abbrev ConfOracle := String → Option (Int × Int)

/-- The value `findSweepableOutputs` caches for a confirmed transaction:
its block height when the scheduler unit is block-height, else its block
time. -/
def confValue (byHeight : Bool) (hb : Int × Int) : Int :=
  if byHeight then hb.1 else hb.2

/-- The `blocktimeCache` of `findSweepableOutputs`, as an association list. -/
abbrev BlockCache := List (String × Int)

/-- Cache lookup used before querying the wallet for a parent tx. -/
def cacheGet (c : BlockCache) (txid : String) : Option Int :=
  (c.find? (fun p => p.1 == txid)).map (·.2)

/-- One scheduled sweep: its expiration time and the swept node's txid
(standing for the `ports.SweepInput` built by `txbuilder.GetSweepInput`). -/
structure SweepEntry where
  expirationTime : Int
  txid : String
deriving DecidableEq

/-- Embeds the body of `findSweepableOutputs`'s loop for one node: an
unconfirmed node yields one sweep entry expiring at its parent's cached or
freshly queried confirmation value plus the tree's relative timelock, and
fails when the parent is unconfirmed too; a confirmed internal node yields
its children for the next iteration; a confirmed leaf yields nothing.
The wallet and the tx builder (`expiry`) are the interface parameters. -/
def processNode (t : TxTree) (conf : ConfOracle) (byHeight : Bool)
    (expiry : Int) (cache : BlockCache) (node : TNode) :
    Except String (BlockCache × Option SweepEntry × List TNode) :=
  match conf node.txid with
  | none =>
    match cacheGet cache node.parentTxid with
    | some pv => .ok (cache, some ⟨pv + expiry, node.txid⟩, [])
    | none =>
      match conf node.parentTxid with
      | none => .error node.parentTxid
      | some hb =>
        let pv := confValue byHeight hb
        .ok (cache ++ [(node.parentTxid, pv)], some ⟨pv + expiry, node.txid⟩, [])
  | some hb =>
    let cache' := cache ++ [(node.txid, confValue byHeight hb)]
    if node.leaf then .ok (cache', none, [])
    else .ok (cache', none, t.children node.txid)

/-- One iteration of `findSweepableOutputs`'s loop over the frontier. -/
def processLevel (t : TxTree) (conf : ConfOracle) (byHeight : Bool)
    (expiry : Int) (cache : BlockCache) :
    List TNode → Except String (BlockCache × List SweepEntry × List TNode)
  | [] => .ok (cache, [], [])
  | node :: rest =>
    match processNode t conf byHeight expiry cache node with
    | .error e => .error e
    | .ok (cache', entry, kids) =>
      match processLevel t conf byHeight expiry cache' rest with
      | .error e => .error e
      | .ok (cache'', entries, kids') =>
        .ok (cache'', entry.toList ++ entries, kids ++ kids')

/-- The fueled loop of `findSweepableOutputs`: repeats `processLevel` on
the frontier until it is empty. -/
def sweepLoop (t : TxTree) (conf : ConfOracle) (byHeight : Bool)
    (expiry : Int) : Nat → BlockCache → List TNode →
    Except String (List SweepEntry)
  | 0, _, [] => .ok []
  | 0, _, _ :: _ => .error ""
  | _ + 1, _, [] => .ok []
  | fuel + 1, cache, nodes =>
    match processLevel t conf byHeight expiry cache nodes with
    | .error e => .error e
    | .ok (cache', entries, next) =>
      match sweepLoop t conf byHeight expiry fuel cache' next with
      | .error e => .error e
      | .ok more => .ok (entries ++ more)

/-- Embeds `findSweepableOutputs`: the breadth-first traversal from the
root row.  In a well-formed tree each iteration moves the frontier one
level down, so the node count bounds the iterations; the fuel realises
that bound. -/
def findSweepableOutputs (t : TxTree) (conf : ConfOracle) (byHeight : Bool)
    (expiry : Int) : Except String (List SweepEntry) :=
  sweepLoop t conf byHeight expiry (t.flatten.length + 1) [] (t.headD [])

/-- Little-endian byte rendering of a natural number on `k` bytes. -/
def natToBytes : Nat → Nat → List Nat
  | 0, _ => []
  | k + 1, n => n % 256 :: natToBytes k (n / 256)

/-- The number a little-endian byte list denotes. -/
def bytesToNat (l : List Nat) : Nat := l.foldr (fun b acc => b + 256 * acc) 0

/-- Modelled from the spec: one cell of a nonce or partial-signature
matrix on the wire — a presence flag then, for a present cell, its
fixed-size payload (`tree.TreeNonces.Encode` / `tree.TreePartialSigs.Encode`
are not among the staged sources; the spec fixes only that the round trip
is the identity and that nil cells survive). -/
def encCell (len : Nat) : Option Nat → List Nat
  | none => [0]
  | some v => 1 :: natToBytes len v

/-- Modelled from the spec: decode one cell, returning it and the rest of
the stream. -/
def decCell (len : Nat) : List Nat → Option (Option Nat × List Nat)
  | [] => none
  | b :: rest =>
    if b = 0 then some (none, rest)
    else if b = 1 then
      if len ≤ rest.length then some (some (bytesToNat (rest.take len)), rest.drop len)
      else none
    else none

/-- Modelled from the spec: encode one row of cells, length-prefixed. -/
def encRow (len : Nat) (row : List (Option Nat)) : List Nat :=
  row.length :: (row.map (encCell len)).flatten

/-- Modelled from the spec: decode `k` cells from the stream. -/
def decCells (len : Nat) : Nat → List Nat → Option (List (Option Nat) × List Nat)
  | 0, l => some ([], l)
  | k + 1, l =>
    match decCell len l with
    | none => none
    | some (c, rest) =>
      match decCells len k rest with
      | none => none
      | some (cs, rest') => some (c :: cs, rest')

/-- Modelled from the spec: encode a matrix of cells, row-count prefixed. -/
def encodeMatrix (len : Nat) (m : List (List (Option Nat))) : List Nat :=
  m.length :: (m.map (encRow len)).flatten

/-- Modelled from the spec: decode `k` rows from the stream. -/
def decRows (len : Nat) : Nat → List Nat → Option (List (List (Option Nat)) × List Nat)
  | 0, l => some ([], l)
  | k + 1, l =>
    match l with
    | [] => none
    | n :: rest =>
      match decCells len n rest with
      | none => none
      | some (row, rest') =>
        match decRows len k rest' with
        | none => none
        | some (rows, rest'') => some (row :: rows, rest'')

/-- Modelled from the spec: decode a whole matrix, requiring the stream to
be consumed exactly. -/
def decodeMatrix (len : Nat) : List Nat → Option (List (List (Option Nat)))
  | [] => none
  | n :: rest =>
    match decRows len n rest with
    | none => none
    | some (rows, rest') => if rest'.isEmpty then some rows else none

/-- A public nonce cell: the 66-byte pair of compressed points, as a
number below `256 ^ 66`; `none` marks a non-participating position. -/
abbrev TreeNonces := List (List (Option Nat))

/-- A MuSig2 partial signature: the serialized scalar `S`. -/
structure PartSig where
  s : Nat
deriving DecidableEq

/-- A tree of partial signatures, `none` at non-participating positions. -/
abbrev TreePartSigs := List (List (Option PartSig))

/-- Byte width of a serialized nonce (two compressed points). -/
def nonceBytes : Nat := 66

/-- Byte width of a serialized partial-signature scalar. -/
def sigBytes : Nat := 32

/-- Modelled from the spec: `tree.TreeNonces.Encode`. -/
def encodeNonces (m : TreeNonces) : List Nat := encodeMatrix nonceBytes m

/-- Modelled from the spec: `tree.DecodeNonces`. -/
def decodeNonces (l : List Nat) : Option TreeNonces := decodeMatrix nonceBytes l

/-- Modelled from the spec: `tree.TreePartialSigs.Encode` writes each
present cell's scalar. -/
def encodeSigs (m : TreePartSigs) : List Nat :=
  encodeMatrix sigBytes (m.map (fun row => row.map (fun c => c.map (·.s))))

/-- Modelled from the spec: `tree.DecodeSignatures` rebuilds each present
cell from its scalar. -/
def decodeSigs (l : List Nat) : Option TreePartSigs :=
  (decodeMatrix sigBytes l).map
    (fun rows => rows.map (fun row => row.map (fun c => c.map (fun v => ⟨v⟩))))

/-- A node of the VTXO tree as the signing protocol sees it: the signing
message (the shared output script and amount digested into the sighash)
and the receiver leaves reachable through its subtree. -/
structure MsNode where
  msg : Int
  subtreeLeaves : List Nat
deriving DecidableEq

/-- Modelled from the spec: the signer set of a tree node — the receivers
reachable from the node (always) together with every `SignAll` receiver,
plus the server. -/
def nodeParticipants (recvTypes : List SigningType) (server : Nat)
    (node : MsNode) : List Nat :=
  (List.range recvTypes.length).filter
    (fun i => recvTypes.get? i = some .signAll || node.subtreeLeaves.contains i)
    ++ [server]

/-- Modelled from the spec: the signing context in the discrete-log model —
each signer's secret key and per-node secret nonce as scalars, and the
challenge as an arbitrary function of the node's message (script and
amount), the aggregated nonce and the aggregated key. -/
structure SignCtx where
  sk : Nat → Int
  nonce : Nat → MsNode → Int
  chal : Int → Int → Int → Int

/-- The aggregated public key of a node's signer set (in the exponent). -/
def aggKey (ctx : SignCtx) (parts : List Nat) : Int :=
  (parts.map ctx.sk).sum

/-- The aggregated public nonce of a node (in the exponent). -/
def aggNonce (ctx : SignCtx) (parts : List Nat) (node : MsNode) : Int :=
  (parts.map (fun i => ctx.nonce i node)).sum

/-- The node's Schnorr challenge. -/
def nodeChal (ctx : SignCtx) (parts : List Nat) (node : MsNode) : Int :=
  ctx.chal node.msg (aggNonce ctx parts node) (aggKey ctx parts)

/-- Modelled from the spec: signer `i`'s partial signature for a node. -/
def partSigOf (ctx : SignCtx) (parts : List Nat) (node : MsNode) (i : Nat) : Int :=
  ctx.nonce i node + nodeChal ctx parts node * ctx.sk i

/-- Modelled from the spec: the coordinator's combine step sums the
partial signatures of the node's signer set. -/
def combineNode (ctx : SignCtx) (parts : List Nat) (node : MsNode) : Int :=
  (parts.map (partSigOf ctx parts node)).sum

/-- Modelled from the spec: Schnorr verification of a node's combined
signature against the aggregated key and nonce (in the exponent). -/
def verifyNode (ctx : SignCtx) (parts : List Nat) (node : MsNode) (sig : Int) : Bool :=
  sig == aggNonce ctx parts node + nodeChal ctx parts node * aggKey ctx parts

/-- The input VTXO outpoints a queued request holds. -/
def inputKeys (r : TimedTxRequest) : List VtxoKey :=
  r.request.inputs.map (·.key)

/-- The boarding-input outpoints a queued request holds. -/
def boardingKeys (r : TimedTxRequest) : List (String × Nat) :=
  r.boardingInputs.map (fun b => (b.txid, b.vout))

/-- The recovered-VTXO outpoints a queued request holds. -/
def recoveredKeys (r : TimedTxRequest) : List VtxoKey :=
  r.recoveredVtxos.map (·.key)

/-- The note ids a queued request holds. -/
def noteIds (r : TimedTxRequest) : List Nat :=
  r.notes.map (·.id)

/-- The queue uniqueness invariant: no two queued requests share an input
VTXO outpoint, a boarding outpoint, a recovered outpoint or a note id. -/
def QueueInv (s : Queue) : Prop :=
  List.Pairwise (fun a b => List.Disjoint (inputKeys a) (inputKeys b)) s ∧
  List.Pairwise (fun a b => List.Disjoint (boardingKeys a) (boardingKeys b)) s ∧
  List.Pairwise (fun a b => List.Disjoint (recoveredKeys a) (recoveredKeys b)) s ∧
  List.Pairwise (fun a b => List.Disjoint (noteIds a) (noteIds b)) s

/-- Leaf-txid order: the order in which the spec says the connector leaves
stand when the index is built. -/
def leafLe (a b : TNode) : Prop := strLtB b.txid a.txid = false

instance : DecidableRel leafLe := fun a b =>
  instDecidableEqBool (strLtB b.txid a.txid) false

/-- C2: after initialization, `allSigned` is true iff every entry of the
forfeit map holds a non-empty transaction; `pop` returns all collected
forfeit txs when every entry is non-empty and fails naming a vtxo with an
empty entry otherwise; and popping always leaves the reset (empty) state. -/
theorem c2_forfeit_pop_allSigned (m : ForfeitState) :
    (m.allSigned = true ↔ ∀ p ∈ m.forfeitTxs, p.2 ≠ "") ∧
    ((∀ p ∈ m.forfeitTxs, p.2 ≠ "") → m.pop.1 = .ok (m.forfeitTxs.map (·.2))) ∧
    ((∃ p ∈ m.forfeitTxs, p.2 = "") →
      ∃ k, m.pop.1 = .error (.missingForfeit k) ∧ (k, "") ∈ m.forfeitTxs) ∧
    m.pop.2 = ForfeitState.empty := by
  refine ⟨?_, ?_, ?_, ?_⟩
  · simp only [ForfeitState.allSigned, List.all_eq_true, Bool.not_eq_true',
      Prod.forall]
    constructor
    · intro h a b hmem heq
      subst heq
      exact absurd (h a "" hmem) (by decide)
    · intro h a b hmem
      rw [Bool.eq_false_iff]
      intro ht
      exact h a b hmem ((String.isEmpty_iff _).mp ht)
  · intro h
    have hnone : m.forfeitTxs.find? (fun p => p.2.isEmpty) = none := by
      rw [List.find?_eq_none]
      intro p hp
      simpa [String.isEmpty_iff] using h p hp
    simp [ForfeitState.pop, hnone]
  · rintro ⟨p, hp, hempty⟩
    have hsome : ∃ q, m.forfeitTxs.find? (fun p => p.2.isEmpty) = some q := by
      rcases hfind : m.forfeitTxs.find? (fun p => p.2.isEmpty) with _ | q
      · rw [List.find?_eq_none] at hfind
        exact absurd (by simp [String.isEmpty_iff, hempty]) (hfind p hp)
      · exact ⟨q, hfind⟩
    rcases hsome with ⟨q, hq⟩
    have hqmem := List.mem_of_find?_eq_some hq
    have hqempty : q.2 = "" := by
      have := List.find?_some hq
      simpa [String.isEmpty_iff] using this
    refine ⟨q.1, ?_, ?_⟩
    · simp [ForfeitState.pop, hq]
    · simpa [← hqempty]
  · simp only [ForfeitState.pop]
    split <;> rfl

/-- C5: `update` on an absent id fails with not-found; on the stored entry
it succeeds exactly when the submitted request's input amounts plus the
stored boarding, note and recovered amounts equal the submitted receiver
amounts (as wrapped uint64 sums), and reports the mismatching sums
otherwise. -/
theorem c5_update_balance (s : Queue) (request : TxRequest)
    (m2 : Option Musig2Data) :
    ((∀ r ∈ s, r.request.id ≠ request.id) →
      s.update request m2 = .error (.notFound request.id)) ∧
    (∀ r, s.find? (fun r => r.request.id == request.id) = some r →
      ((∃ s', s.update request m2 = .ok s') ↔
        updateSumInputs request r = updateSumOutputs request) ∧
      (updateSumInputs request r ≠ updateSumOutputs request →
        s.update request m2
          = .error (.sumMismatch (updateSumInputs request r)
              (updateSumOutputs request)))) := by
  constructor
  · intro h
    have hnone : s.find? (fun r => r.request.id == request.id) = none := by
      rw [List.find?_eq_none]
      intro r hr
      simpa using h r hr
    simp [Queue.update, hnone]
  · intro r hr
    constructor
    · constructor
      · rintro ⟨s', hs'⟩
        by_contra hne
        simp [Queue.update, hr, hne] at hs'
      · intro heq
        refine ⟨s.map (fun t =>
          if t.request.id = request.id then
            { t with request := request,
                     musig2Data := match m2 with
                       | some d => some d
                       | none => t.musig2Data }
          else t), ?_⟩
        simp [Queue.update, hr, heq]
    · intro hne
      simp [Queue.update, hr, hne]

theorem setPing_request_id (id : String) (t : Int) (r : TimedTxRequest) :
    (if r.request.id = id then { r with pingTimestamp := t } else r).request.id
      = r.request.id := by
  split <;> rfl

theorem setPing_setPing (s : Queue) (id : String) (t₁ t₂ : Int) :
    (s.setPing id t₁).setPing id t₂ = s.setPing id t₂ := by
  simp only [Queue.setPing, List.map_map]
  refine List.map_congr_left ?_
  intro r _
  by_cases h : r.request.id = id <;> simp [h]

theorem any_id_setPing (s : Queue) (id : String) (t : Int) (id' : String) :
    (s.setPing id t).any (fun r => r.request.id == id')
      = s.any (fun r => r.request.id == id') := by
  simp only [Queue.setPing, List.any_map]
  congr 1
  funext r
  simp only [Function.comp_apply]
  by_cases h : r.request.id = id <;> simp [h]

theorem updatePing_of_any (s : Queue) (id : String) (t : Int)
    (h : s.any (fun r => r.request.id == id) = true) :
    s.updatePing id t = .ok (s.setPing id t) := by
  simp [Queue.updatePing, h]

theorem pingSeq_collapse (ts : List Int) (s : Queue) (id : String) (t : Int)
    (h : s.any (fun r => r.request.id == id) = true) :
    s.pingSeq id (ts ++ [t]) = .ok (s.setPing id t) := by
  induction ts generalizing s with
  | nil =>
    simp [Queue.pingSeq, updatePing_of_any s id t h]
  | cons t₁ ts ih =>
    have step : s.pingSeq id (t₁ :: (ts ++ [t]))
        = (s.setPing id t₁).pingSeq id (ts ++ [t]) := by
      simp [Queue.pingSeq, updatePing_of_any s id t₁ h]
    rw [List.cons_append, step,
      ih (s.setPing id t₁) ((any_id_setPing s id t₁ id).trans h),
      setPing_setPing]

/-- C6: given the id is present, a run of `updatePingTimestamp` calls ends
in the same state as the single last call — the ping timestamp is the time
of the latest call; on an absent id the call fails with not-found (and, in
the embedding, produces no new state). -/
theorem c6_ping_idempotent (s : Queue) (id : String) (ts : List Int)
    (t : Int) :
    ((∃ r ∈ s, r.request.id = id) →
      s.pingSeq id (ts ++ [t]) = s.updatePing id t) ∧
    ((∀ r ∈ s, r.request.id ≠ id) →
      s.updatePing id t = .error (.notFound id)) := by
  constructor
  · intro hpresent
    have hany : s.any (fun r => r.request.id == id) = true := by
      rcases hpresent with ⟨r, hr, hid⟩
      exact List.any_eq_true.mpr ⟨r, hr, by simpa using hid⟩
    rw [pingSeq_collapse ts s id t hany, updatePing_of_any s id t hany]
  · intro habsent
    have hany : s.any (fun r => r.request.id == id) = false := by
      rw [Bool.eq_false_iff]
      intro hc
      rcases List.any_eq_true.mp hc with ⟨r, hr, hid⟩
      exact habsent r hr (by simpa using hid)
    simp [Queue.updatePing, hany]

theorem mem_popTaken_eligible (s : Queue) (num now : Int)
    (r : TimedTxRequest) (h : r ∈ s.popTaken num now) :
    r ∈ s ∧ popEligible now r = true := by
  have hsel : r ∈ s.popSelect now := List.mem_of_mem_take h
  have hfil : r ∈ s.filter (popEligible now) :=
    ((List.perm_insertionSort byBirth (s.filter (popEligible now))).mem_iff).mp hsel
  exact ⟨List.mem_of_mem_filter hfil, List.of_mem_filter hfil⟩

/-- C10: a queued request with an empty receiver set is invisible to `pop`
— it is neither returned nor deleted, whatever its ping age — and the
queue length counts only requests with receivers, so appending such a
request leaves the count unchanged. -/
theorem c10_empty_receivers_invisible (s : Queue) (num now : Int)
    (r : TimedTxRequest) :
    (r ∈ s → r.request.receivers = [] →
      (s.map (fun x => x.request.id)).Nodup →
      r ∉ s.popTaken num now ∧
      r.request ∉ (s.pop num now).requests ∧
      r ∈ (s.pop num now).queue) ∧
    (r.request.receivers = [] → Queue.count (s ++ [r]) = Queue.count s) := by
  constructor
  · intro hmem hrecv huniq
    have hnotelig : popEligible now r = false := by
      simp [popEligible, hrecv]
    have hnottaken : r ∉ s.popTaken num now := by
      intro hc
      exact absurd (mem_popTaken_eligible s num now r hc).2 (by simp [hnotelig])
    refine ⟨hnottaken, ?_, ?_⟩
    · intro hc
      simp only [Queue.pop, List.mem_map] at hc
      rcases hc with ⟨x, hx, hxr⟩
      have hx' := (mem_popTaken_eligible s num now x hx).2
      simp [popEligible, hxr, hrecv] at hx'
    · simp only [Queue.pop, Queue.popRemaining]
      have hstale : popStale now r = false := by
        simp [popStale, hrecv]
      refine List.mem_filter.mpr ⟨List.mem_filter.mpr ⟨hmem, by simp [hstale]⟩, ?_⟩
      simp only [Bool.not_eq_eq_eq_not, Bool.not_true, List.any_eq_false]
      intro x hx
      have hxs := (mem_popTaken_eligible s num now x hx).1
      simp only [beq_eq_false_iff_ne, ne_eq]
      intro hid
      have hinj := List.inj_on_of_nodup_map huniq
      have : x = r := hinj hxs hmem (by simpa using hid)
      subst this
      exact absurd hx hnottaken
  · intro hrecv
    simp [Queue.count, List.filter_append, hrecv]

/-- C3 counterexample: a queued request with no receivers whose last ping
is more than five minutes old is not deleted by `pop`, contrary to the
claim that every request past the delete gap is removed. -/
theorem c3_counterexample :
    (400 : Int) - (0 : Int) > deleteGapSeconds ∧
    (Queue.pop [⟨⟨"a", [], []⟩, [], [], 0, 0, none, []⟩] (-1) 400).queue
      = [⟨⟨"a", [], []⟩, [], [], 0, 0, none, []⟩] := by decide

/-- C3 (amended): `pop num` excludes every request whose last ping is over
a minute old; among requests that have receivers it deletes those whose
last ping is over five minutes old; the requests it takes are sorted in
FIFO order of birth timestamp, number at most `num` when `num` is
non-negative and exhaust the eligible set when `num` is negative; and
every taken request is removed from the queue. -/
theorem c3_pop_liveness (s : Queue) (num now : Int) :
    (∀ r ∈ s, now - r.pingTimestamp > selectGapSeconds →
      r ∉ s.popTaken num now) ∧
    (∀ r ∈ s, r.request.receivers ≠ [] →
      now - r.pingTimestamp > deleteGapSeconds → r ∉ (s.pop num now).queue) ∧
    List.Sorted byBirth (s.popTaken num now) ∧
    (0 ≤ num → (s.popTaken num now).length ≤ num.toNat) ∧
    (num < 0 → s.popTaken num now = s.popSelect now) ∧
    (∀ r ∈ s.popTaken num now, r ∉ (s.pop num now).queue) ∧
    (s.pop num now).requests = (s.popTaken num now).map (fun x => x.request) := by
  refine ⟨?_, ?_, ?_, ?_, ?_, ?_, rfl⟩
  · intro r _ hgap hc
    have helig := (mem_popTaken_eligible s num now r hc).2
    simp [popEligible, hgap] at helig
  · intro r _ hrecv hgap hc
    simp only [Queue.pop, Queue.popRemaining] at hc
    have hkeep := List.of_mem_filter (List.mem_of_mem_filter hc)
    simp [popStale, hrecv, hgap] at hkeep
  · have hsorted : List.Sorted byBirth (s.popSelect now) :=
      @List.sorted_insertionSort _ byBirth _
        ⟨fun a b => Int.le_total a.timestamp b.timestamp⟩
        ⟨fun _ _ _ hab hbc => le_trans hab hbc⟩ (s.filter (popEligible now))
    exact List.Pairwise.sublist (List.take_sublist _ _) hsorted
  · intro hnum
    have : ¬ num < 0 := by omega
    simp only [Queue.popTaken, List.length_take, popCount, if_neg this]
    omega
  · intro hnum
    simp [Queue.popTaken, popCount, hnum]
  · intro r hr hc
    simp only [Queue.pop, Queue.popRemaining] at hc
    have hkeep := List.of_mem_filter hc
    simp only [Bool.not_eq_eq_eq_not, Bool.not_true, List.any_eq_false] at hkeep
    exact absurd (by simp) (hkeep r hr)

/-- C4 counterexample: `pushWithNotes` does not check input-VTXO overlap,
so after a plain push of a request spending `t:0` it accepts a second
request spending the same outpoint, and the resulting queue violates the
claimed uniqueness invariant. -/
theorem c4_counterexample :
    Queue.push [] ⟨"id1", [⟨⟨"t", 0⟩, 100⟩], []⟩ [] [] none 0
      = .ok [⟨⟨"id1", [⟨⟨"t", 0⟩, 100⟩], []⟩, [], [], 0, 0, none, []⟩] ∧
    Queue.pushWithNotes [⟨⟨"id1", [⟨⟨"t", 0⟩, 100⟩], []⟩, [], [], 0, 0, none, []⟩]
        ⟨"id2", [⟨⟨"t", 0⟩, 100⟩], []⟩ [] 5
      = .ok [⟨⟨"id1", [⟨⟨"t", 0⟩, 100⟩], []⟩, [], [], 0, 0, none, []⟩,
             ⟨⟨"id2", [⟨⟨"t", 0⟩, 100⟩], []⟩, [], [], 5, 0, none, []⟩] ∧
    ¬ QueueInv [⟨⟨"id1", [⟨⟨"t", 0⟩, 100⟩], []⟩, [], [], 0, 0, none, []⟩,
                ⟨⟨"id2", [⟨⟨"t", 0⟩, 100⟩], []⟩, [], [], 5, 0, none, []⟩] := by
  refine ⟨by rfl, by rfl, ?_⟩
  intro h
  rcases h with ⟨hi, -, -, -⟩
  have hd := (List.pairwise_cons.mp hi).1 _ (List.mem_singleton.mpr rfl)
  exact hd
    (show (⟨"t", 0⟩ : VtxoKey) ∈
      inputKeys ⟨⟨"id1", [⟨⟨"t", 0⟩, 100⟩], []⟩, [], [], 0, 0, none, []⟩ by decide)
    (show (⟨"t", 0⟩ : VtxoKey) ∈
      inputKeys ⟨⟨"id2", [⟨⟨"t", 0⟩, 100⟩], []⟩, [], [], 5, 0, none, []⟩ by decide)

/-- C4 (amended): a plain `push` preserves the full uniqueness invariant —
no two queued requests share an input VTXO outpoint, a boarding outpoint,
a recovered outpoint or a note id — and rejects a reused request id;
`pushWithNotes` checks only the request id and the note ids, so it
preserves the invariant provided the pushed request carries no input
VTXOs (it stores empty boarding and recovered sets itself). -/
theorem c4_push_uniqueness (s s' : Queue) (request : TxRequest)
    (b : List BoardingInput) (rec : List Vtxo) (m2 : Option Musig2Data)
    (notes : List Note) (now : Int) :
    (QueueInv s → s.push request b rec m2 now = .ok s' → QueueInv s') ∧
    (QueueInv s → request.inputs = [] →
      s.pushWithNotes request notes now = .ok s' → QueueInv s') ∧
    ((∃ r ∈ s, r.request.id = request.id) →
      s.push request b rec m2 now = .error (.duplicatedRequest request.id) ∧
      s.pushWithNotes request notes now
        = .error (.duplicatedRequest request.id)) := by
  refine ⟨?_, ?_, ?_⟩
  · intro hinv h
    by_cases h1 : s.any (fun r => r.request.id == request.id) = true
    · simp [Queue.push, h1] at h
    rcases hfind1 : request.inputs.find?
        (fun i => s.any (fun r => r.request.inputs.any (fun p => p.key == i.key)))
      with _ | i
    swap
    · simp [Queue.push, h1, hfind1] at h
    rcases hfind2 : b.find?
        (fun i => s.any (fun r => r.boardingInputs.any
          (fun p => p.txid == i.txid && p.vout == i.vout)))
      with _ | i
    swap
    · simp [Queue.push, h1, hfind1, hfind2] at h
    rcases hfind3 : rec.find?
        (fun v => s.any (fun r => r.recoveredVtxos.any (fun p => p.key == v.key)))
      with _ | v
    swap
    · simp [Queue.push, h1, hfind1, hfind2, hfind3] at h
    have hs' : s' = s ++ [⟨request, b, [], now, now, m2, rec⟩] := by
      simp only [Queue.push, if_neg h1, hfind1, hfind2, hfind3] at h
      simpa using h.symm
    subst hs'
    have hinputs : ∀ i ∈ request.inputs, ∀ r ∈ s, ∀ p ∈ r.request.inputs,
        p.key ≠ i.key := by
      intro i hi r hr p hp
      have := List.find?_eq_none.mp hfind1 i hi
      simp only [List.any_eq_true, not_exists, not_and] at this
      simpa using this r hr p hp
    have hboarding : ∀ i ∈ b, ∀ r ∈ s, ∀ p ∈ r.boardingInputs,
        ¬(p.txid = i.txid ∧ p.vout = i.vout) := by
      intro i hi r hr p hp
      have := List.find?_eq_none.mp hfind2 i hi
      simp only [List.any_eq_true, not_exists, not_and] at this
      simpa using this r hr p hp
    have hrecov : ∀ v ∈ rec, ∀ r ∈ s, ∀ p ∈ r.recoveredVtxos,
        p.key ≠ v.key := by
      intro v hv r hr p hp
      have := List.find?_eq_none.mp hfind3 v hv
      simp only [List.any_eq_true, not_exists, not_and] at this
      simpa using this r hr p hp
    rcases hinv with ⟨hpi, hpb, hpr, hpn⟩
    refine ⟨?_, ?_, ?_, ?_⟩
    · rw [List.pairwise_append]
      refine ⟨hpi, by simp, ?_⟩
      intro r hr x hx k hk1 hk2
      simp only [List.mem_singleton] at hx
      subst hx
      simp only [inputKeys, List.mem_map] at hk1 hk2
      rcases hk1 with ⟨p, hp, hpk⟩
      rcases hk2 with ⟨i, hi, hik⟩
      exact hinputs i hi r hr p hp (hpk.trans hik.symm)
    · rw [List.pairwise_append]
      refine ⟨hpb, by simp, ?_⟩
      intro r hr x hx k hk1 hk2
      simp only [List.mem_singleton] at hx
      subst hx
      simp only [boardingKeys, List.mem_map] at hk1 hk2
      rcases hk1 with ⟨p, hp, hpk⟩
      rcases hk2 with ⟨i, hi, hik⟩
      refine hboarding i hi r hr p hp ?_
      rw [← hik] at hpk
      exact ⟨congrArg Prod.fst hpk, congrArg Prod.snd hpk⟩
    · rw [List.pairwise_append]
      refine ⟨hpr, by simp, ?_⟩
      intro r hr x hx k hk1 hk2
      simp only [List.mem_singleton] at hx
      subst hx
      simp only [recoveredKeys, List.mem_map] at hk1 hk2
      rcases hk1 with ⟨p, hp, hpk⟩
      rcases hk2 with ⟨v, hv, hvk⟩
      exact hrecov v hv r hr p hp (hpk.trans hvk.symm)
    · rw [List.pairwise_append]
      refine ⟨hpn, by simp, ?_⟩
      intro r hr x hx k hk1 hk2
      simp only [List.mem_singleton] at hx
      subst hx
      simp [noteIds] at hk2
  · intro hinv hreq h
    by_cases h1 : s.any (fun r => r.request.id == request.id) = true
    · simp [Queue.pushWithNotes, h1] at h
    rcases hnfind : notes.find?
        (fun n => s.any (fun r => r.notes.any (fun m => m.id == n.id)))
      with _ | n
    swap
    · simp [Queue.pushWithNotes, h1, hnfind] at h
    have hs' : s' = s ++ [⟨request, [], notes, now, 0, none, []⟩] := by
      simp only [Queue.pushWithNotes, if_neg h1, hnfind] at h
      simpa using h.symm
    subst hs'
    have hnotes : ∀ n ∈ notes, ∀ r ∈ s, ∀ m ∈ r.notes, m.id ≠ n.id := by
      intro n hn r hr m hm
      have := List.find?_eq_none.mp hnfind n hn
      simp only [List.any_eq_true, not_exists, not_and] at this
      simpa using this r hr m hm
    rcases hinv with ⟨hpi, hpb, hpr, hpn⟩
    refine ⟨?_, ?_, ?_, ?_⟩
    · rw [List.pairwise_append]
      refine ⟨hpi, by simp, ?_⟩
      intro r hr x hx k hk1 hk2
      simp only [List.mem_singleton] at hx
      subst hx
      simp [inputKeys, hreq] at hk2
    · rw [List.pairwise_append]
      refine ⟨hpb, by simp, ?_⟩
      intro r hr x hx k hk1 hk2
      simp only [List.mem_singleton] at hx
      subst hx
      simp [boardingKeys] at hk2
    · rw [List.pairwise_append]
      refine ⟨hpr, by simp, ?_⟩
      intro r hr x hx k hk1 hk2
      simp only [List.mem_singleton] at hx
      subst hx
      simp [recoveredKeys] at hk2
    · rw [List.pairwise_append]
      refine ⟨hpn, by simp, ?_⟩
      intro r hr x hx k hk1 hk2
      simp only [List.mem_singleton] at hx
      subst hx
      simp only [noteIds, List.mem_map] at hk1 hk2
      rcases hk1 with ⟨m, hm, hmk⟩
      rcases hk2 with ⟨n, hn, hnk⟩
      exact hnotes n hn r hr m hm (hmk.trans hnk.symm)
  · intro hpresent
    have hany : s.any (fun r => r.request.id == request.id) = true := by
      rcases hpresent with ⟨r, hr, hid⟩
      exact List.any_eq_true.mpr ⟨r, hr, by simpa using hid⟩
    constructor
    · simp [Queue.push, hany]
    · simp [Queue.pushWithNotes, hany]

theorem chLt_asymm (a : List Char) : ∀ b, chLt a b = true → chLt b a = false := by
  induction a with
  | nil =>
    intro b h
    cases b with
    | nil => simp [chLt] at h
    | cons y ys => simp [chLt]
  | cons x xs ih =>
    intro b h
    cases b with
    | nil => simp [chLt] at h
    | cons y ys =>
      simp only [chLt] at h ⊢
      by_cases hxy : x.toNat < y.toNat
      · have hyx : ¬ y.toNat < x.toNat := by omega
        simp [hxy, hyx]
      · by_cases hyx : y.toNat < x.toNat
        · simp [hxy, hyx] at h
        · simp only [if_neg hxy, if_neg hyx] at h ⊢
          exact ih ys h

theorem chLt_cotrans (a : List Char) :
    ∀ b c, chLt a c = true → chLt a b = true ∨ chLt b c = true := by
  induction a with
  | nil =>
    intro b c h
    cases c with
    | nil => simp [chLt] at h
    | cons z zs =>
      cases b with
      | nil => right; simp [chLt]
      | cons y ys => left; simp [chLt]
  | cons x xs ih =>
    intro b c h
    cases c with
    | nil => simp [chLt] at h
    | cons z zs =>
      cases b with
      | nil => right; simp [chLt]
      | cons y ys =>
        simp only [chLt] at h ⊢
        by_cases hxz : x.toNat < z.toNat
        · by_cases hxy : x.toNat < y.toNat
          · left; simp [hxy]
          · by_cases hyz : y.toNat < z.toNat
            · right; simp [hyz]
            · exact absurd hxz (by omega)
        · by_cases hzx : z.toNat < x.toNat
          · simp [hxz, hzx] at h
          · simp only [if_neg hxz, if_neg hzx] at h
            by_cases hxy : x.toNat < y.toNat
            · left; simp [hxy]
            · by_cases hyx : y.toNat < x.toNat
              · right
                have hyz : y.toNat < z.toNat := by omega
                simp [hyz]
              · rcases ih ys zs h with h' | h'
                · left; simp [if_neg hxy, if_neg hyx, h']
                · right
                  have hyz : ¬ y.toNat < z.toNat := by omega
                  have hzy : ¬ z.toNat < y.toNat := by omega
                  simp [if_neg hyz, if_neg hzy, h']

theorem vtxoLe_total (a b : Vtxo) : vtxoLe a b ∨ vtxoLe b a := by
  by_cases h : strLtB b.keyStr a.keyStr = true
  · right
    unfold vtxoLe strLtB at *
    exact chLt_asymm _ _ h
  · left
    exact Bool.eq_false_iff.mpr h

theorem vtxoLe_trans (a b c : Vtxo) (hab : vtxoLe a b) (hbc : vtxoLe b c) :
    vtxoLe a c := by
  unfold vtxoLe strLtB at hab hbc ⊢
  rw [Bool.eq_false_iff] at hab hbc ⊢
  intro hca
  rcases chLt_cotrans _ _ _ hca with h | h
  · exact hbc h
  · exact hab h

/-- C1: initialization of the forfeit collector sorts the batch's input
VTXOs lexicographically by their `txid:vout` string and binds the i-th of
them to the first output of the i-th connector leaf (the leaves taken in
txid-sorted order per the claim's hypothesis), and fails whenever the
input VTXOs outnumber the connector leaves. -/
theorem c1_forfeit_init_binding (m : ForfeitState) (connectors : TxTree)
    (requests : List TxRequest) :
    List.Sorted vtxoLe (initSorted requests) ∧
    (initSorted requests).Perm (initVtxos requests) ∧
    (∀ st, m.init connectors requests = .ok st →
      List.Sorted leafLe connectors.leaves →
      ∀ (i : Nat) (v : Vtxo) (lf : TNode),
        (initSorted requests)[i]? = some v →
        connectors.leaves[i]? = some lf →
        st.connectorsIndex[i]? = some (v.keyStr, (⟨lf.txid, 0⟩ : VtxoKey))) ∧
    (connectors.leaves.length < (initVtxos requests).length →
      ∃ e, m.init connectors requests = .error e) := by
  have hperm := List.perm_insertionSort vtxoLe (initVtxos requests)
  refine ⟨?_, hperm, ?_, ?_⟩
  · exact @List.sorted_insertionSort _ vtxoLe _ ⟨vtxoLe_total⟩
      ⟨vtxoLe_trans⟩ (initVtxos requests)
  · intro st hok _ i v lf hv hlf
    by_cases hemp : (initVtxos requests).isEmpty
    · have hnil : initVtxos requests = [] := List.isEmpty_iff.mp hemp
      have hs : initSorted requests = [] := by
        simp [initSorted, hnil, List.insertionSort]
      rw [hs] at hv
      simp at hv
    · by_cases hlv : connectors.leaves.isEmpty
      · simp [ForfeitState.init, hemp, hlv] at hok
      · by_cases hguard :
          connectors.leaves.length < (initSorted requests).length
        · simp [ForfeitState.init, hemp, hlv, hguard] at hok
        · have hrec := hok
          simp only [ForfeitState.init, hemp, hlv, hguard, List.length_map,
            if_false, ite_false, Bool.false_eq_true] at hrec
          obtain rfl : _ = st := by simpa using hrec
          show (List.zip ((initSorted requests).map Vtxo.keyStr)
            (connectors.leaves.map (fun n => (⟨n.txid, 0⟩ : VtxoKey))))[i]?
              = some (v.keyStr, ⟨lf.txid, 0⟩)
          rw [List.getElem?_zip_eq_some]
          constructor
          · rw [List.getElem?_map, hv]
            rfl
          · rw [List.getElem?_map, hlf]
            rfl
  · intro hlen
    by_cases hemp : (initVtxos requests).isEmpty
    · exact absurd hlen (by simp [List.isEmpty_iff.mp hemp])
    · by_cases hlv : connectors.leaves.isEmpty
      · exact ⟨.noConnectors, by simp [ForfeitState.init, hemp, hlv]⟩
      · have hguard :
          connectors.leaves.length < (initSorted requests).length := by
          have hle := hperm.length_eq
          simp only [initSorted] at hle ⊢
          omega
        exact ⟨.tooManyVtxos (initSorted requests).length
            connectors.leaves.length,
          by simp [ForfeitState.init, hemp, hlv, hguard]⟩

theorem length_natToBytes (k : Nat) : ∀ n, (natToBytes k n).length = k := by
  induction k with
  | zero => intro n; rfl
  | succ k ih => intro n; simp [natToBytes, ih]

theorem bytesToNat_natToBytes (k : Nat) :
    ∀ n, n < 256 ^ k → bytesToNat (natToBytes k n) = n := by
  induction k with
  | zero =>
    intro n h
    simp only [pow_zero, Nat.lt_one_iff] at h
    subst h
    rfl
  | succ k ih =>
    intro n h
    have hdiv : n / 256 < 256 ^ k := by
      refine Nat.div_lt_of_lt_mul ?_
      rw [pow_succ] at h
      omega
    simp only [natToBytes, bytesToNat, List.foldr_cons]
    have : (natToBytes k (n / 256)).foldr (fun b acc => b + 256 * acc) 0
        = n / 256 := ih (n / 256) hdiv
    rw [this]
    omega

theorem decCell_encCell (L : Nat) (c : Option Nat) (t : List Nat)
    (h : ∀ v, c = some v → v < 256 ^ L) :
    decCell L (encCell L c ++ t) = some (c, t) := by
  cases c with
  | none => simp [encCell, decCell]
  | some v =>
    simp only [encCell, List.cons_append, decCell]
    have hlen : (natToBytes L v).length = L := length_natToBytes L v
    have htake : (natToBytes L v ++ t).take L = natToBytes L v :=
      List.take_left' hlen
    have hdrop : (natToBytes L v ++ t).drop L = t :=
      List.drop_left' hlen
    have hle : L ≤ (natToBytes L v).length + t.length := by
      rw [hlen]
      omega
    simp [hle, htake, hdrop, bytesToNat_natToBytes L v (h v rfl)]

theorem decCells_encCells (L : Nat) (row : List (Option Nat)) (t : List Nat)
    (h : ∀ c ∈ row, ∀ v, c = some v → v < 256 ^ L) :
    decCells L row.length ((row.map (encCell L)).flatten ++ t)
      = some (row, t) := by
  induction row with
  | nil => simp [decCells]
  | cons c cs ih =>
    simp only [List.map_cons, List.flatten_cons, List.length_cons,
      List.append_assoc, decCells]
    rw [decCell_encCell L c _ (h c (by simp))]
    have hcs := ih (fun c' hc' => h c' (by simp [hc']))
    simp [hcs]

theorem decRows_encRows (L : Nat) (m : List (List (Option Nat)))
    (t : List Nat)
    (h : ∀ row ∈ m, ∀ c ∈ row, ∀ v, c = some v → v < 256 ^ L) :
    decRows L m.length ((m.map (encRow L)).flatten ++ t) = some (m, t) := by
  induction m with
  | nil => simp [decRows]
  | cons row rows ih =>
    simp only [List.map_cons, List.flatten_cons, List.length_cons, encRow,
      List.cons_append, List.append_assoc, decRows]
    rw [decCells_encCells L row _ (h row (by simp))]
    have hrows := ih (fun row' hrow' => h row' (by simp [hrow']))
    simp [hrows]

theorem decodeMatrix_encodeMatrix (L : Nat) (m : List (List (Option Nat)))
    (h : ∀ row ∈ m, ∀ c ∈ row, ∀ v, c = some v → v < 256 ^ L) :
    decodeMatrix L (encodeMatrix L m) = some m := by
  simp only [encodeMatrix, decodeMatrix]
  have hd := decRows_encRows L m [] h
  rw [List.append_nil] at hd
  rw [hd]
  rfl

/-- C7: encoding a tree-nonce matrix or a tree of partial signatures and
decoding it back is the identity — every nonce cell is recovered exactly,
every present partial-signature cell is recovered with an equal scalar,
and nil cells decode back to nil. -/
theorem c7_musig2_roundtrip (nm : TreeNonces) (sm : TreePartSigs) :
    ((∀ row ∈ nm, ∀ c ∈ row, ∀ v, c = some v → v < 256 ^ nonceBytes) →
      decodeNonces (encodeNonces nm) = some nm) ∧
    ((∀ row ∈ sm, ∀ c ∈ row, ∀ p, c = some p → p.s < 256 ^ sigBytes) →
      decodeSigs (encodeSigs sm) = some sm) := by
  constructor
  · intro h
    exact decodeMatrix_encodeMatrix nonceBytes nm h
  · intro h
    have hvalid : ∀ row ∈ sm.map (fun row => row.map (fun c => c.map (·.s))),
        ∀ c ∈ row, ∀ v, c = some v → v < 256 ^ sigBytes := by
      intro row hrow c hc v hv
      simp only [List.mem_map] at hrow
      rcases hrow with ⟨row₀, hrow₀, rfl⟩
      simp only [List.mem_map] at hc
      rcases hc with ⟨c₀, hc₀, rfl⟩
      cases c₀ with
      | none => simp at hv
      | some p =>
        simp only [Option.map_some', Option.some.injEq] at hv
        exact hv ▸ h row₀ hrow₀ _ hc₀ p rfl
    unfold decodeSigs encodeSigs
    rw [decodeMatrix_encodeMatrix sigBytes _ hvalid]
    have hcell : ∀ (c : Option PartSig),
        Option.map (fun v => (⟨v⟩ : PartSig)) (Option.map PartSig.s c) = c := by
      intro c
      cases c <;> rfl
    simp [List.map_map, Function.comp_def, hcell]

theorem sum_map_linear (l : List Nat) (f g : Nat → Int) (c : Int) :
    (l.map (fun i => f i + c * g i)).sum
      = (l.map f).sum + c * (l.map g).sum := by
  induction l with
  | nil => simp
  | cons a t ih =>
    simp only [List.map_cons, List.sum_cons, ih]
    ring

/-- C8: for every cosigner key set and signing-type assignment (SignAll,
SignBranch or a mix fixes each node's signer set), if every expected
signer submits its nonce and protocol-conformant partial signature for
every node it participates in, the coordinator's combine step yields a
signature at every tree node that verifies against the node's aggregated
key and nonce (the challenge binding the shared output script and
amount). -/
theorem c8_tree_signing (ctx : SignCtx) (recvTypes : List SigningType)
    (server : Nat) (nodes : List MsNode) :
    ∀ node ∈ nodes,
      verifyNode ctx (nodeParticipants recvTypes server node) node
        (combineNode ctx (nodeParticipants recvTypes server node) node)
        = true := by
  intro node _
  unfold verifyNode combineNode partSigOf
  rw [beq_iff_eq, sum_map_linear]
  rfl

/-- C9: in the sweep traversal, an unconfirmed node contributes exactly
one sweep input expiring at its parent's confirmed height-or-time plus the
tree's relative timelock (the parent value coming from the cache or a
fresh wallet query), and fails when the parent is unconfirmed too; a
confirmed internal node contributes nothing and hands its children to the
next iteration; a confirmed leaf contributes nothing; and each processed
level's entries prefix the traversal's output while its children become
the next frontier. -/
theorem c9_sweepable_outputs (t : TxTree) (conf : ConfOracle)
    (byHeight : Bool) (expiry : Int) (cache : BlockCache) (node : TNode) :
    (conf node.txid = none →
      (∀ pv, cacheGet cache node.parentTxid = some pv →
        processNode t conf byHeight expiry cache node
          = .ok (cache, some ⟨pv + expiry, node.txid⟩, [])) ∧
      (∀ hb, cacheGet cache node.parentTxid = none →
        conf node.parentTxid = some hb →
        processNode t conf byHeight expiry cache node
          = .ok (cache ++ [(node.parentTxid, confValue byHeight hb)],
              some ⟨confValue byHeight hb + expiry, node.txid⟩, [])) ∧
      (cacheGet cache node.parentTxid = none →
        conf node.parentTxid = none →
        processNode t conf byHeight expiry cache node
          = .error node.parentTxid)) ∧
    (∀ hb, conf node.txid = some hb → node.leaf = false →
      processNode t conf byHeight expiry cache node
        = .ok (cache ++ [(node.txid, confValue byHeight hb)], none,
            t.children node.txid)) ∧
    (∀ hb, conf node.txid = some hb → node.leaf = true →
      processNode t conf byHeight expiry cache node
        = .ok (cache ++ [(node.txid, confValue byHeight hb)], none, [])) ∧
    (∀ fuel cache1 ns cache2 entries next,
      processLevel t conf byHeight expiry cache1 (node :: ns)
        = .ok (cache2, entries, next) →
      sweepLoop t conf byHeight expiry (fuel + 1) cache1 (node :: ns)
        = match sweepLoop t conf byHeight expiry fuel cache2 next with
          | .error e => .error e
          | .ok more => .ok (entries ++ more)) ∧
    findSweepableOutputs t conf byHeight expiry
      = sweepLoop t conf byHeight expiry (t.flatten.length + 1) []
          (t.headD []) := by
  refine ⟨?_, ?_, ?_, ?_, rfl⟩
  · intro hunconf
    refine ⟨?_, ?_, ?_⟩
    · intro pv hpv
      simp [processNode, hunconf, hpv]
    · intro hb hmiss hconf
      simp [processNode, hunconf, hmiss, hconf]
    · intro hmiss hconf
      simp [processNode, hunconf, hmiss, hconf]
  · intro hb hconf hleaf
    simp [processNode, hconf, hleaf]
  · intro hb hconf hleaf
    simp [processNode, hconf, hleaf]
  · intro fuel cache1 ns cache2 entries next hp
    simp [sweepLoop, hp]

/-- Witness for C8: a two-receiver tree node with mixed signing types,
concrete keys, nonces and challenge function. -/
theorem c8_tree_signing_witness :
    verifyNode ⟨fun i => (i : Int) + 1, fun i n => (i : Int) + n.msg,
        fun m r x => m + r + x⟩
      (nodeParticipants [SigningType.signAll, SigningType.signBranch] 2
        ⟨5, [1]⟩) ⟨5, [1]⟩
      (combineNode ⟨fun i => (i : Int) + 1, fun i n => (i : Int) + n.msg,
          fun m r x => m + r + x⟩
        (nodeParticipants [SigningType.signAll, SigningType.signBranch] 2
          ⟨5, [1]⟩) ⟨5, [1]⟩) = true :=
  c8_tree_signing ⟨fun i => (i : Int) + 1, fun i n => (i : Int) + n.msg,
      fun m r x => m + r + x⟩
    [SigningType.signAll, SigningType.signBranch] 2 [⟨5, [1]⟩] ⟨5, [1]⟩
    (by decide)

theorem initSorted_example :
    initSorted [⟨"r1", [⟨⟨"b", 0⟩, 1⟩, ⟨⟨"a", 1⟩, 2⟩], []⟩]
      = [⟨⟨"a", 1⟩, 2⟩, ⟨⟨"b", 0⟩, 1⟩] := by decide

theorem pop_fifo_example :
    (Queue.pop
      [⟨⟨"r1", [], [⟨5⟩]⟩, [], [], 10, 100, none, []⟩,
       ⟨⟨"r2", [], [⟨7⟩]⟩, [], [], 5, 100, none, []⟩] (-1) 100).requests
      = [⟨"r2", [], [⟨7⟩]⟩, ⟨"r1", [], [⟨5⟩]⟩] ∧
    (Queue.pop
      [⟨⟨"r1", [], [⟨5⟩]⟩, [], [], 10, 100, none, []⟩,
       ⟨⟨"r2", [], [⟨7⟩]⟩, [], [], 5, 100, none, []⟩] (-1) 100).queue
      = [] := by decide

end Ark
